import Mathlib

/-!
Shallow embedding of the dataflow-composition engine in `src/dpp.py`
(Data Pipeline Package, class `DPP`), together with theorems settling the
specification claims about resolution, the two execution strategies, and
the composition constructs (`branch`, `sequence`, `select`) and the
read-only lookup.

Modelling conventions:
- Python's opaque context values become the inductive `Value`
  (integers, strings and ordered sequences; `Value.seq` plays the role of
  the `isinstance(result, (tuple, list))` check in `_execute_all`).
- A user function is a total `List Value → Value`; the element-wise
  strategy calls it on a one-element argument list, the whole-tuple
  strategy on the full argument list, mirroring `fn(v)` vs `fn(*values)`.
- The Python dict `self.context` becomes an insertion-ordered association
  list with dict update semantics (`insertCtx`); `self.placeholders`
  keeps only the names (a `Placeholder` object carries nothing else that
  the engine reads besides `.name`).
- Exceptions become an explicit `Err` value; composite operations return
  the mutated state alongside the error, since a raised Python exception
  leaves the in-place mutations of `self.context` intact.
- Executors additionally return the list of function invocations
  (each entry is the positional-argument list of one call), so that
  claims about "the function is called exactly n times" are statable.
-/

namespace Dpp

/-- Context values: Python payloads as far as the engine inspects them.
`seq` covers both `tuple` and `list` (the engine only ever tests
`isinstance(result, (tuple, list))` and takes `len`/elements). -/
inductive Value where
  | int : Int → Value
  | str : String → Value
  | seq : List Value → Value

/-- A user-supplied step function, applied to a positional-argument list. -/
def Fn : Type := List Value → Value

/-- Errors raised by the engine (each constructor corresponds to one
`raise` site or builtin exception in `src/dpp.py`). -/
inductive Err where
  | notImplemented   -- `_resolve_inputs`: `...` token (line 235)
  | noPrev           -- `_resolve_inputs`: PREV with empty last outputs (line 240)
  | keyError         -- dict lookup miss (`self.context[...]` / `self.placeholders[...]`)
  | attributeError   -- `.name` on a token object, or the `__getattr__` guard (line 606)
  | notFound         -- `__getattr__` outside the with-block, name not in context (line 611)
  | arityMismatch    -- "the parameter number is not match" (lines 281, 326)
  | typeMismatch     -- "returned value must be tuple or list ..." (line 323)
  | conflict : String → Err  -- "Variable conflict: ..." (line 443)
  deriving DecidableEq, Repr

/-- An input/output item: a named placeholder, or one of the special
token objects `ALL` / `PREV`. -/
inductive Tok where
  | var : String → Tok
  | all : Tok
  | prev : Tok
  deriving DecidableEq, Repr

/-- The raw input specification handed to `_resolve_inputs`: an explicit
list, a bare item, or the ellipsis token. -/
inductive InSpec where
  | list : List Tok → InSpec
  | single : Tok → InSpec
  | ellipsis : InSpec

/-- `inp.name`: a named placeholder yields its name; the `ALL`/`PREV`
token objects have no `name` attribute, so Python raises
`AttributeError`. -/
def tokName : Tok → Except Err String
  | .var n => .ok n
  | .all => .error Err.attributeError
  | .prev => .error Err.attributeError

/-- Ordered association-list lookup, mirroring Python dict lookup. -/
def lookupCtx : List (String × Value) → String → Option Value
  | [], _ => none
  | (k, v) :: rest, n => if k = n then some v else lookupCtx rest n

/-- Python dict assignment `ctx[n] = v`: update in place if the key
exists, otherwise append (insertion order preserved). -/
def insertCtx : List (String × Value) → String → Value → List (String × Value)
  | [], n, v => [(n, v)]
  | (k, w) :: rest, n, v =>
    if k = n then (k, v) :: rest else (k, w) :: insertCtx rest n v

/-- `self.placeholders[n] = Placeholder(n)` keyed-by-name: record the
name once, keeping first-insertion order. -/
def addPh (ps : List String) (n : String) : List String :=
  if n ∈ ps then ps else ps ++ [n]

/-- The run state of one `DPP` instance: `var_names` (the construction
list, line 177), the context dict, the placeholder registry, and the
last-output record. -/
structure DPP where
  var_names : List String
  context : List (String × Value)
  placeholders : List String
  last_outputs : List Tok

/-- `DPP.__init__(**initial_data)`: context seeded with the bindings,
`var_names` their keys, empty placeholder registry and last outputs. -/
def DPP.init (bindings : List (String × Value)) : DPP :=
  let ctx := bindings.foldl (fun c p => insertCtx c p.1 p.2) []
  { var_names := ctx.map Prod.fst
    context := ctx
    placeholders := []
    last_outputs := [] }

/-- `DPP.__enter__`: create a placeholder for every `var_names` entry
(the caller-scope injection is surface syntax and not modelled). -/
def DPP.enter (d : DPP) : DPP :=
  { d with placeholders := d.var_names.foldl addPh d.placeholders }

/-- `DPP._resolve_inputs` (lines 223–251): ellipsis fails fast; a `PREV`
head (bare or first of a list) yields the recorded last outputs or fails
when the record is empty; an `ALL` head yields
`[self.placeholders[name] for name in self.var_names]`; any other list
is returned unchanged; a bare placeholder is wrapped. -/
def resolveInputs (d : DPP) (s : InSpec) : Except Err (List Tok) :=
  match s with
  | .ellipsis => .error Err.notImplemented
  | .single .prev =>
    if d.last_outputs = [] then .error Err.noPrev else .ok d.last_outputs
  | .single .all =>
    if ∀ n ∈ d.var_names, n ∈ d.placeholders then
      .ok (d.var_names.map Tok.var)
    else .error Err.keyError
  | .single (.var n) => .ok [Tok.var n]
  | .list (Tok.prev :: _) =>
    if d.last_outputs = [] then .error Err.noPrev else .ok d.last_outputs
  | .list (Tok.all :: _) =>
    if ∀ n ∈ d.var_names, n ∈ d.placeholders then
      .ok (d.var_names.map Tok.var)
    else .error Err.keyError
  | .list items => .ok items

/-- `DPP._resolve_outputs` (lines 253–266): an `ALL` head makes the
resolved inputs the outputs; otherwise the list is returned unchanged
(every call site has already wrapped the outputs into a list). -/
def resolveOutputs (outputs : List Tok) (inputs : List Tok) : List Tok :=
  match outputs with
  | Tok.all :: _ => inputs
  | items => items

/-- The read/call loop of `_execute_map` (lines 283–287): for each input,
read its current context value and call the function on that single
value. Returns the collected results, the trace of calls actually made
(one singleton argument list per call), and the first error, if any. -/
def mapCalls (ctx : List (String × Value)) (fn : Fn) :
    List Tok → List Value × List (List Value) × Option Err
  | [] => ([], [], none)
  | t :: rest =>
    match tokName t with
    | .error e => ([], [], some e)
    | .ok n =>
      match lookupCtx ctx n with
      | none => ([], [], some Err.keyError)
      | some v =>
        match mapCalls ctx fn rest with
        | (vs, tr, err) => (fn [v] :: vs, [v] :: tr, err)

/-- The write-back loop shared by both strategies (lines 289–293 and
329–332): write each value to its output placeholder's name and register
the name if it is new. An error while writing (a token without `.name`)
leaves the writes made so far in place. -/
def writeOutputs (d : DPP) : List (Tok × Value) → DPP × Option Err
  | [] => (d, none)
  | (t, v) :: rest =>
    match tokName t with
    | .error e => (d, some e)
    | .ok n =>
      writeOutputs
        { d with context := insertCtx d.context n v
                 placeholders := addPh d.placeholders n } rest

/-- `DPP._execute_map` (lines 268–296): arity gate first, then one call
per input against the pre-step context, then the write-back loop. -/
def executeMap (d : DPP) (inputs : List Tok) (fn : Fn) (outputs : List Tok) :
    DPP × List (List Value) × Option Err :=
  if inputs.length = outputs.length then
    match mapCalls d.context fn inputs with
    | (results, trace, none) =>
      match writeOutputs d (outputs.zip results) with
      | (d1, werr) => (d1, trace, werr)
    | (_, trace, some e) => (d, trace, some e)
  else (d, [], some Err.arityMismatch)

/-- The input-gathering comprehension of `_execute_all` (line 311). -/
def readInputs (ctx : List (String × Value)) : List Tok → Except Err (List Value)
  | [] => .ok []
  | t :: rest =>
    match tokName t with
    | .error e => .error e
    | .ok n =>
      match lookupCtx ctx n with
      | none => .error Err.keyError
      | some v =>
        match readInputs ctx rest with
        | .error e => .error e
        | .ok vs => .ok (v :: vs)

/-- `DPP._execute_all` (lines 298–332): read all inputs, call the
function once on all of them, then: a single declared output takes the
result as-is; multiple outputs require an ordered sequence of matching
length, whose elements are written in order. -/
def executeAll (d : DPP) (inputs : List Tok) (fn : Fn) (outputs : List Tok) :
    DPP × List (List Value) × Option Err :=
  match readInputs d.context inputs with
  | .error e => (d, [], some e)
  | .ok vs =>
    let result := fn vs
    if outputs.length = 1 then
      match writeOutputs d (outputs.zip [result]) with
      | (d1, werr) => (d1, [vs], werr)
    else
      match result with
      | .seq rs =>
        if rs.length = outputs.length then
          match writeOutputs d (outputs.zip rs) with
          | (d1, werr) => (d1, [vs], werr)
        else (d, [vs], some Err.arityMismatch)
      | _ => (d, [vs], some Err.typeMismatch)

/-- The strategy-selection rule of the composition constructs
(`branch` line 447, `sequence` line 495, `select` lines 550, 570):
equal arity picks the element-wise strategy, anything else the
whole-tuple strategy. -/
def execStrategy (d : DPP) (inputs : List Tok) (fn : Fn) (outputs : List Tok) :
    DPP × List (List Value) × Option Err :=
  if inputs.length = outputs.length then executeMap d inputs fn outputs
  else executeAll d inputs fn outputs

/-- An abstract step descriptor `(inputs, fn, outputs)` as consumed by
the composition constructs (outputs are list-shaped at every call
site). -/
structure Step where
  ins : InSpec
  fn : Fn
  outs : List Tok

/-- One resolve-execute-record cycle as performed per step inside
`sequence` (lines 491–500) and per chosen branch inside `select`
(lines 547–555): resolve, execute by the arity rule, and on success
replace the last-output record with the resolved outputs. -/
def stepOnce (d : DPP) (s : Step) : DPP × List (List Value) × Option Err :=
  match resolveInputs d s.ins with
  | .error e => (d, [], some e)
  | .ok inputs =>
    let outputs := resolveOutputs s.outs inputs
    match execStrategy d inputs s.fn outputs with
    | (d1, tr, some e) => (d1, tr, some e)
    | (d1, tr, none) => ({ d1 with last_outputs := outputs }, tr, none)

/-- `DPP.common` (lines 337–376): resolve, run the element-wise strategy
unconditionally, then record the outputs (only on success, since a raise
skips the assignment on line 374). -/
def DPP.common (d : DPP) (ins : InSpec) (fn : Fn) (outs : List Tok) :
    DPP × List (List Value) × Option Err :=
  match resolveInputs d ins with
  | .error e => (d, [], some e)
  | .ok inputs =>
    let outputs := resolveOutputs outs inputs
    match executeMap d inputs fn outputs with
    | (d1, tr, some e) => (d1, tr, some e)
    | (d1, tr, none) => ({ d1 with last_outputs := outputs }, tr, none)

/-- `DPP.all` (lines 378–412): like `common` but with the whole-tuple
strategy. -/
def DPP.all (d : DPP) (ins : InSpec) (fn : Fn) (outs : List Tok) :
    DPP × List (List Value) × Option Err :=
  match resolveInputs d ins with
  | .error e => (d, [], some e)
  | .ok inputs =>
    let outputs := resolveOutputs outs inputs
    match executeAll d inputs fn outputs with
    | (d1, tr, some e) => (d1, tr, some e)
    | (d1, tr, none) => ({ d1 with last_outputs := outputs }, tr, none)

/-- The merge policies of `DPP.branch`. -/
inductive Merge where
  | last
  | first
  | error
  deriving DecidableEq

/-- The conflict scan run before a branch executes under the `error`
policy (lines 440–443): the first declared output already in the
written set aborts the invocation. -/
def errorCheck (written : List String) : List Tok → Option Err
  | [] => none
  | t :: rest =>
    match tokName t with
    | .error e => some e
    | .ok n => if n ∈ written then some (Err.conflict n) else errorCheck written rest

/-- The written-set bookkeeping run after a branch executes
(lines 452–455). Note that under `first` the `continue` only skips the
`written_vars.add`; it does not undo or prevent any context write. -/
def updateWritten (merge : Merge) : List String → List Tok → Except Err (List String)
  | written, [] => .ok written
  | written, t :: rest =>
    match tokName t with
    | .error e => .error e
    | .ok n =>
      if merge = Merge.first ∧ n ∈ written then updateWritten merge written rest
      else updateWritten merge (if n ∈ written then written else written ++ [n]) rest

/-- The main loop of `DPP.branch` (lines 435–457), carrying the state,
the written set, the accumulated output list, and one call-trace entry
per branch that started executing. -/
def branchLoop (merge : Merge) :
    DPP → List String → List Tok → List (List (List Value)) → List Step →
    DPP × List String × List Tok × List (List (List Value)) × Option Err
  | d, written, acc, trs, [] => (d, written, acc, trs, none)
  | d, written, acc, trs, s :: rest =>
    match resolveInputs d s.ins with
    | .error e => (d, written, acc, trs, some e)
    | .ok inputs =>
      let outputs := resolveOutputs s.outs inputs
      match (if merge = Merge.error then errorCheck written outputs else none) with
      | some e => (d, written, acc, trs, some e)
      | none =>
        match execStrategy d inputs s.fn outputs with
        | (d1, tr, some e) => (d1, written, acc, trs ++ [tr], some e)
        | (d1, tr, none) =>
          match updateWritten merge written outputs with
          | .error e => (d1, written, acc, trs ++ [tr], some e)
          | .ok written1 => branchLoop merge d1 written1 (acc ++ outputs) (trs ++ [tr]) rest

/-- `DPP.branch` (lines 414–464): run the loop from an empty written
set; on success the last-output record becomes the concatenation of all
branches' resolved outputs. -/
def DPP.branch (d : DPP) (steps : List Step) (merge : Merge) :
    DPP × List (List (List Value)) × Option Err :=
  match branchLoop merge d [] [] [] steps with
  | (d1, _, allOuts, trs, none) => ({ d1 with last_outputs := allOuts }, trs, none)
  | (d1, _, _, trs, some e) => (d1, trs, some e)

/-- The loop of `DPP.sequence` (lines 491–500). -/
def seqLoop : DPP → List Step → DPP × Option Err
  | d, [] => (d, none)
  | d, s :: rest =>
    match stepOnce d s with
    | (d1, _, some e) => (d1, some e)
    | (d1, _, none) => seqLoop d1 rest

/-- `DPP.sequence` (lines 466–505). -/
def DPP.sequence (d : DPP) (steps : List Step) : DPP × Option Err :=
  seqLoop d steps

/-- A `select` predicate: it receives the attribute snapshot of the
context taken at the start of the call (lines 528–533). -/
def Cond : Type := List (String × Value) → Bool

/-- The branch scan of `DPP.select` (lines 535–561): predicates are
tried in order against the entry snapshot; the first true one has its
step run and the scan stops. Also returns whether some branch executed
and how many predicates were evaluated. -/
def selectLoop (snap : List (String × Value)) :
    DPP → List (Step × Cond) → DPP × Bool × Nat × Option Err
  | d, [] => (d, false, 0, none)
  | d, (s, c) :: rest =>
    if c snap then
      match stepOnce d s with
      | (d1, _, err) => (d1, true, 1, err)
    else
      match selectLoop snap d rest with
      | (d1, ex, n, err) => (d1, ex, n + 1, err)

/-- `DPP.select` (lines 507–580): scan the branches; if none executed
and a default step is supplied, run it; otherwise leave the state as the
scan left it. -/
def DPP.select (d : DPP) (branches : List (Step × Cond)) (dflt : Option Step) :
    DPP × Option Err :=
  match selectLoop d.context d branches with
  | (d1, _, _, some e) => (d1, some e)
  | (d1, true, _, none) => (d1, none)
  | (d1, false, _, none) =>
    match dflt with
    | none => (d1, none)
    | some s =>
      match stepOnce d1 s with
      | (d2, _, err) => (d2, err)

/-- `name.startswith('_')` specialised to the guard on line 603. -/
def startsWithUnderscore (name : String) : Bool :=
  match name.data with
  | [] => false
  | c :: _ => c = '_'

/-- The reserved attribute names recognised by the `__getattr__` guard
(lines 603–605). -/
def reservedNames : List String :=
  ["context", "placeholders", "var_names", "last_outputs", "common", "all",
   "branch", "sequence", "select", "debug"]

/-- `DPP.__getattr__` outside the with-block (lines 602–611): reserved
or underscore-prefixed names fail unconditionally; otherwise the context
value is returned, or a not-found error when the name is absent. (The
in-context placeholder-creation path is surface syntax for building
descriptors and is not modelled.) -/
def DPP.get (d : DPP) (name : String) : Except Err Value :=
  if startsWithUnderscore name = true ∨ name ∈ reservedNames then
    .error Err.attributeError
  else
    match lookupCtx d.context name with
    | some v => .ok v
    | none => .error Err.notFound

/-- Pointwise reading of a list of names from a context (used to state
that every input of a step is present, with its value). -/
def lookupList (ctx : List (String × Value)) : List String → Option (List Value)
  | [] => some []
  | n :: rest =>
    (lookupCtx ctx n).bind fun v => (lookupList ctx rest).map fun vs => v :: vs

/-! Concrete sample functions and run states, used by the closed
counterexample and witness theorems below. -/

/-- `lambda v: v * 2` on integer payloads. -/
def dbl : Fn := fun vs =>
  match vs with
  | [Value.int n] => Value.int (n * 2)
  | _ => Value.int 0

/-- `lambda v: v + k` on integer payloads. -/
def addK (k : Int) : Fn := fun vs =>
  match vs with
  | [Value.int n] => Value.int (n + k)
  | _ => Value.int 0

/-- The single-argument identity function. -/
def idFn : Fn := fun vs =>
  match vs with
  | [v] => v
  | _ => Value.seq vs

/-- `lambda a, b: (a + b, a * b)` on integer payloads. -/
def sumProd : Fn := fun vs =>
  match vs with
  | [Value.int a, Value.int b] => Value.seq [Value.int (a + b), Value.int (a * b)]
  | _ => Value.int 0

/-- A predicate that always holds. -/
def condTrue : Cond := fun _ => true

/-- A predicate that never holds. -/
def condFalse : Cond := fun _ => false

/-- `DPP(x=10)` entered as a context manager. -/
def dInit : DPP := DPP.enter (DPP.init [("x", Value.int 10)])

/-- `dInit` after `common([x] >> dbl >> [y])`, which introduces and
registers the output variable `y`. -/
def dAfterY : DPP := (DPP.common dInit (InSpec.list [Tok.var "x"]) dbl [Tok.var "y"]).1

/-- `DPP(x=1, y=2)` entered as a context manager. -/
def dXY : DPP := DPP.enter (DPP.init [("x", Value.int 1), ("y", Value.int 2)])

/-- `DPP(a=2, b=3)` entered as a context manager. -/
def dAB : DPP := DPP.enter (DPP.init [("a", Value.int 2), ("b", Value.int 3)])

/-- The step `([x], lambda v: v + 1, [y])`. -/
def stepAdd1 : Step := ⟨InSpec.list [Tok.var "x"], addK 1, [Tok.var "y"]⟩

/-- The step `([x], lambda v: v + 2, [y])`. -/
def stepAdd2 : Step := ⟨InSpec.list [Tok.var "x"], addK 2, [Tok.var "y"]⟩

/-- The step `(PREV, lambda v: v + 5, [z])`. -/
def stepPrev : Step := ⟨InSpec.list [Tok.prev], addK 5, [Tok.var "z"]⟩

/-- The state `dInit` reaches after executing `stepAdd1` (context gains
`y = 11`, `y` is registered, the last-output record is untouched because
`branch` only writes it at the very end). -/
def dA : DPP :=
  { var_names := ["x"]
    context := [("x", Value.int 10), ("y", Value.int 11)]
    placeholders := ["x", "y"]
    last_outputs := [] }

/-- `dA` with a non-empty last-output record. -/
def dPrevSet : DPP := { dA with last_outputs := [Tok.var "y"] }

/-- `DPP(_x=1)`: a registered variable whose name starts with an
underscore. -/
def dC8 : DPP := DPP.init [("_x", Value.int 1)]

/-- The full result of `DPP(x=10).branch(([x], +1, [y]), ([x], +2, [y]),
merge='first')`. -/
def c2run : DPP × List (List (List Value)) × Option Err :=
  DPP.branch dInit [stepAdd1, stepAdd2] Merge.first

/-! ### Helper lemmas about the context store and the write-back loop -/

/-- Dict update followed by lookup. -/
theorem lookupCtx_insertCtx (ctx : List (String × Value)) (n m : String) (v : Value) :
    lookupCtx (insertCtx ctx n v) m = if n = m then some v else lookupCtx ctx m := by
  induction ctx with
  | nil =>
    by_cases h : n = m <;> simp [insertCtx, lookupCtx, h]
  | cons p rest ih =>
    obtain ⟨k, w⟩ := p
    by_cases hk : k = n
    · subst hk
      by_cases hm : k = m <;> simp [insertCtx, lookupCtx, hm]
    · by_cases hm : k = m
      · subst hm
        have hn : ¬n = k := fun h => hk h.symm
        simp [insertCtx, lookupCtx, hk, hn]
      · simp [insertCtx, lookupCtx, hk, hm, ih]

/-- Membership in the placeholder registry is stable under registration. -/
theorem mem_addPh (ps : List String) (k n : String) (h : n ∈ ps) : n ∈ addPh ps k := by
  unfold addPh
  split
  · exact h
  · exact List.mem_append_left _ h

/-- The write-back loop never touches `var_names`. -/
theorem writeOutputs_var_names (pairs : List (Tok × Value)) (d : DPP) :
    ((writeOutputs d pairs).1).var_names = d.var_names := by
  induction pairs generalizing d with
  | nil => rfl
  | cons p rest ih =>
    obtain ⟨t, v⟩ := p
    cases t with
    | var n => simpa [writeOutputs, tokName] using ih _
    | all => simp [writeOutputs, tokName]
    | prev => simp [writeOutputs, tokName]

/-- The write-back loop never touches the last-output record. -/
theorem writeOutputs_last_outputs (pairs : List (Tok × Value)) (d : DPP) :
    ((writeOutputs d pairs).1).last_outputs = d.last_outputs := by
  induction pairs generalizing d with
  | nil => rfl
  | cons p rest ih =>
    obtain ⟨t, v⟩ := p
    cases t with
    | var n => simpa [writeOutputs, tokName] using ih _
    | all => simp [writeOutputs, tokName]
    | prev => simp [writeOutputs, tokName]

/-- Frame property of the write-back loop: a name not among the written
placeholder names keeps its previous context value. -/
theorem writeOutputs_frame (pairs : List (Tok × Value)) (d : DPP) (m : String)
    (h : ∀ q ∈ pairs, tokName q.1 ≠ Except.ok m) :
    lookupCtx ((writeOutputs d pairs).1).context m = lookupCtx d.context m := by
  induction pairs generalizing d with
  | nil => rfl
  | cons p rest ih =>
    obtain ⟨t, v⟩ := p
    cases t with
    | var n =>
      have hn : ¬n = m := by
        intro he
        exact h (Tok.var n, v) (List.mem_cons_self _ _) (by simp [tokName, he])
      simp only [writeOutputs, tokName]
      rw [ih _ (fun q hq => h q (List.mem_cons_of_mem _ hq))]
      simp [lookupCtx_insertCtx, hn]
    | all => simp [writeOutputs, tokName]
    | prev => simp [writeOutputs, tokName]

/-- The write-back loop never removes a registered placeholder. -/
theorem writeOutputs_placeholders (pairs : List (Tok × Value)) (d : DPP) (n : String)
    (h : n ∈ d.placeholders) :
    n ∈ ((writeOutputs d pairs).1).placeholders := by
  induction pairs generalizing d with
  | nil => exact h
  | cons p rest ih =>
    obtain ⟨t, v⟩ := p
    cases t with
    | var k =>
      simp only [writeOutputs, tokName]
      exact ih _ (mem_addPh _ _ _ h)
    | all => simpa [writeOutputs, tokName] using h
    | prev => simpa [writeOutputs, tokName] using h

/-- The write-back loop never removes a context entry. -/
theorem writeOutputs_domain (pairs : List (Tok × Value)) (d : DPP) (n : String) (v : Value)
    (h : lookupCtx d.context n = some v) :
    ∃ w, lookupCtx ((writeOutputs d pairs).1).context n = some w := by
  induction pairs generalizing d v with
  | nil => exact ⟨v, h⟩
  | cons p rest ih =>
    obtain ⟨t, u⟩ := p
    cases t with
    | var k =>
      simp only [writeOutputs, tokName]
      by_cases hk : k = n
      · exact ih _ u (by simp [lookupCtx_insertCtx, hk])
      · exact ih _ v (by simp [lookupCtx_insertCtx, hk, h])
    | all => exact ⟨v, by simpa [writeOutputs, tokName] using h⟩
    | prev => exact ⟨v, by simpa [writeOutputs, tokName] using h⟩

/-- Writing plain named outputs never raises. -/
theorem writeOutputs_vars_snd (names : List String) (results : List Value) (d : DPP) :
    (writeOutputs d ((names.map Tok.var).zip results)).2 = none := by
  induction names generalizing results d with
  | nil => rfl
  | cons n rest ih =>
    cases results with
    | nil => rfl
    | cons r rs =>
      simp only [List.map_cons, List.zip_cons_cons, writeOutputs, tokName]
      exact ih rs _

/-- After writing pairwise-distinct named outputs, each output name maps
to the value written for it. -/
theorem writeOutputs_lookup_nodup (names : List String) (results : List Value) (d : DPP)
    (hnd : names.Nodup) (hlen : names.length = results.length) :
    ∀ p ∈ names.zip results,
      lookupCtx ((writeOutputs d ((names.map Tok.var).zip results)).1).context p.1 = some p.2 := by
  induction names generalizing results d with
  | nil => intro p hp; simp at hp
  | cons n rest ih =>
    cases results with
    | nil => intro p hp; simp at hp
    | cons r rs =>
      intro p hp
      have hnotin : n ∉ rest := (List.nodup_cons.mp hnd).1
      have hndrest : rest.Nodup := (List.nodup_cons.mp hnd).2
      have hlen2 : rest.length = rs.length := by simpa using hlen
      simp only [List.map_cons, List.zip_cons_cons, writeOutputs, tokName]
      rcases List.mem_cons.mp (by simpa using hp) with hEq | hMem
      · subst hEq
        rw [writeOutputs_frame]
        · simp [lookupCtx_insertCtx]
        · intro q hq
          obtain ⟨a, b⟩ := q
          have ha : a ∈ rest.map Tok.var := (List.of_mem_zip hq).1
          obtain ⟨k, hk, hk2⟩ := List.mem_map.mp ha
          intro hcon
          rw [← hk2] at hcon
          simp only [tokName, Except.ok.injEq] at hcon
          exact hnotin (hcon ▸ hk)
      · exact ih rs _ hndrest hlen2 p hMem

/-- Lifting an every-output frame condition to the zipped write list. -/
theorem zip_frame_premise (outputs : List Tok) (results : List Value) (m : String)
    (h : ∀ t ∈ outputs, tokName t ≠ Except.ok m) :
    ∀ q ∈ outputs.zip results, tokName q.1 ≠ Except.ok m := by
  intro q hq
  obtain ⟨a, b⟩ := q
  exact h a (List.of_mem_zip hq).1

/-! ### Helper lemmas about input reading and the two strategies -/

/-- A successful pointwise read has as many values as names. -/
theorem lookupList_length (ctx : List (String × Value)) (names : List String)
    (vals : List Value) (h : lookupList ctx names = some vals) :
    vals.length = names.length := by
  induction names generalizing vals with
  | nil =>
    simp [lookupList] at h
    subst h
    rfl
  | cons n rest ih =>
    simp only [lookupList, Option.bind_eq_some, Option.map_eq_some'] at h
    obtain ⟨v, hv, vs, hvs, hc⟩ := h
    subst hc
    simp [ih vs hvs]

/-- When every input name is present, the read/call loop of the
element-wise strategy makes exactly one single-argument call per input
value, in order, and raises nothing. -/
theorem mapCalls_of_lookupList (ctx : List (String × Value)) (fn : Fn)
    (names : List String) (vals : List Value)
    (h : lookupList ctx names = some vals) :
    mapCalls ctx fn (names.map Tok.var) =
      (vals.map fun v => fn [v], vals.map fun v => [v], none) := by
  induction names generalizing vals with
  | nil =>
    simp [lookupList] at h
    subst h
    rfl
  | cons n rest ih =>
    simp only [lookupList, Option.bind_eq_some, Option.map_eq_some'] at h
    obtain ⟨v, hv, vs, hvs, hc⟩ := h
    subst hc
    simp [mapCalls, tokName, hv, ih vs hvs]

/-- When every input name is present, the whole-tuple strategy's input
gathering succeeds with exactly those values. -/
theorem readInputs_of_lookupList (ctx : List (String × Value))
    (names : List String) (vals : List Value)
    (h : lookupList ctx names = some vals) :
    readInputs ctx (names.map Tok.var) = .ok vals := by
  induction names generalizing vals with
  | nil =>
    simp [lookupList] at h
    subst h
    rfl
  | cons n rest ih =>
    simp only [lookupList, Option.bind_eq_some, Option.map_eq_some'] at h
    obtain ⟨v, hv, vs, hvs, hc⟩ := h
    subst hc
    simp [readInputs, tokName, hv, ih vs hvs]

/-- Reduction of the element-wise strategy once the call loop is known
to succeed. -/
theorem executeMap_eq_of_calls (d : DPP) (inputs : List Tok) (fn : Fn) (outputs : List Tok)
    (results : List Value) (trace : List (List Value))
    (hlen : inputs.length = outputs.length)
    (hmc : mapCalls d.context fn inputs = (results, trace, none)) :
    executeMap d inputs fn outputs =
      ((writeOutputs d (outputs.zip results)).1, trace,
        (writeOutputs d (outputs.zip results)).2) := by
  rcases hw : writeOutputs d (outputs.zip results) with ⟨d1, werr⟩
  simp [executeMap, hlen, hmc, hw]

/-- The element-wise strategy either leaves the state alone (on an
arity or read failure) or ends in a write-back from the starting
state. -/
theorem executeMap_state (d : DPP) (inputs : List Tok) (fn : Fn) (outputs : List Tok) :
    (executeMap d inputs fn outputs).1 = d ∨
    ∃ rs, (executeMap d inputs fn outputs).1 = (writeOutputs d (outputs.zip rs)).1 := by
  by_cases hlen : inputs.length = outputs.length
  · rcases hmc : mapCalls d.context fn inputs with ⟨results, trace, err⟩
    cases err with
    | none =>
      right
      refine ⟨results, ?_⟩
      rcases hw : writeOutputs d (outputs.zip results) with ⟨d1, werr⟩
      simp [executeMap, hlen, hmc, hw]
    | some e =>
      left
      simp [executeMap, hlen, hmc]
  · left
    simp [executeMap, hlen]

/-- The whole-tuple strategy either leaves the state alone or ends in a
write-back from the starting state. -/
theorem executeAll_state (d : DPP) (inputs : List Tok) (fn : Fn) (outputs : List Tok) :
    (executeAll d inputs fn outputs).1 = d ∨
    ∃ rs, (executeAll d inputs fn outputs).1 = (writeOutputs d (outputs.zip rs)).1 := by
  cases hri : readInputs d.context inputs with
  | error e =>
    left
    simp [executeAll, hri]
  | ok vs =>
    by_cases hone : outputs.length = 1
    · right
      refine ⟨[fn vs], ?_⟩
      rcases hw : writeOutputs d (outputs.zip [fn vs]) with ⟨d1, werr⟩
      simp [executeAll, hri, hone, hw]
    · cases hres : fn vs with
      | seq rs =>
        by_cases hrl : rs.length = outputs.length
        · right
          refine ⟨rs, ?_⟩
          rcases hw : writeOutputs d (outputs.zip rs) with ⟨d1, werr⟩
          simp [executeAll, hri, hone, hres, hrl, hw]
        · left
          simp [executeAll, hri, hone, hres, hrl]
      | int n =>
        left
        simp [executeAll, hri, hone, hres]
      | str s2 =>
        left
        simp [executeAll, hri, hone, hres]

/-- Neither strategy touches `var_names`. -/
theorem executeMap_var_names (d : DPP) (inputs : List Tok) (fn : Fn) (outputs : List Tok) :
    ((executeMap d inputs fn outputs).1).var_names = d.var_names := by
  rcases executeMap_state d inputs fn outputs with h | ⟨rs, h⟩
  · rw [h]
  · rw [h, writeOutputs_var_names]

theorem executeAll_var_names (d : DPP) (inputs : List Tok) (fn : Fn) (outputs : List Tok) :
    ((executeAll d inputs fn outputs).1).var_names = d.var_names := by
  rcases executeAll_state d inputs fn outputs with h | ⟨rs, h⟩
  · rw [h]
  · rw [h, writeOutputs_var_names]

theorem execStrategy_var_names (d : DPP) (inputs : List Tok) (fn : Fn) (outputs : List Tok) :
    ((execStrategy d inputs fn outputs).1).var_names = d.var_names := by
  unfold execStrategy
  split
  · exact executeMap_var_names d inputs fn outputs
  · exact executeAll_var_names d inputs fn outputs

/-- One resolve-execute-record cycle never extends or reorders
`var_names` (new output names go into `placeholders` only). -/
theorem stepOnce_var_names (d : DPP) (s : Step) :
    ((stepOnce d s).1).var_names = d.var_names := by
  cases hri : resolveInputs d s.ins with
  | error e => simp [stepOnce, hri]
  | ok inputs =>
    rcases hex : execStrategy d inputs s.fn (resolveOutputs s.outs inputs) with ⟨d1, tr, err⟩
    have h1 := execStrategy_var_names d inputs s.fn (resolveOutputs s.outs inputs)
    rw [hex] at h1
    cases err with
    | none =>
      simp [stepOnce, hri, hex]
      exact h1
    | some e =>
      simp [stepOnce, hri, hex]
      exact h1

/-! ### Helper lemmas about the composition loops -/

/-- The trace of the whole-tuple strategy is always the one call made on
all input values, once the inputs were read successfully. -/
theorem executeAll_trace (d : DPP) (inputs : List Tok) (fn : Fn) (outputs : List Tok)
    (vs : List Value) (hread : readInputs d.context inputs = .ok vs) :
    (executeAll d inputs fn outputs).2.1 = [vs] := by
  by_cases hone : outputs.length = 1
  · rcases hw : writeOutputs d (outputs.zip [fn vs]) with ⟨d1, werr⟩
    simp [executeAll, hread, hone, hw]
  · cases hres : fn vs with
    | seq rs =>
      by_cases hrl : rs.length = outputs.length
      · rcases hw : writeOutputs d (outputs.zip rs) with ⟨d1, werr⟩
        simp [executeAll, hread, hone, hres, hrl, hw]
      · simp [executeAll, hread, hone, hres, hrl]
    | int n => simp [executeAll, hread, hone, hres]
    | str s2 => simp [executeAll, hread, hone, hres]

/-- The branch loop splits over list concatenation, stopping at the
first error. -/
theorem branchLoop_append (merge : Merge) (d : DPP) (w : List String) (acc : List Tok)
    (trs : List (List (List Value))) (xs ys : List Step) :
    branchLoop merge d w acc trs (xs ++ ys) =
      match branchLoop merge d w acc trs xs with
      | (d1, w1, acc1, trs1, none) => branchLoop merge d1 w1 acc1 trs1 ys
      | (d1, w1, acc1, trs1, some e) => (d1, w1, acc1, trs1, some e) := by
  induction xs generalizing d w acc trs with
  | nil => simp [branchLoop]
  | cons s rest ih =>
    cases hri : resolveInputs d s.ins with
    | error e => simp [branchLoop, hri]
    | ok inputs =>
      cases hec : (if merge = Merge.error
          then errorCheck w (resolveOutputs s.outs inputs) else none) with
      | some e => simp [branchLoop, hri, hec]
      | none =>
        rcases hex : execStrategy d inputs s.fn (resolveOutputs s.outs inputs) with ⟨d1, tr, err⟩
        cases err with
        | some e => simp [branchLoop, hri, hec, hex]
        | none =>
          cases huw : updateWritten merge w (resolveOutputs s.outs inputs) with
          | error e => simp [branchLoop, hri, hec, hex, huw]
          | ok w1 => simp [branchLoop, hri, hec, hex, huw, ih]

/-- Under the `error` policy, a declared output list consisting of named
placeholders one of which is already in the written set makes the
conflict scan abort with a variable-conflict error. -/
theorem errorCheck_conflict (written : List String) (outNames : List String)
    (h : ∃ n ∈ outNames, n ∈ written) :
    ∃ m, errorCheck written (outNames.map Tok.var) = some (Err.conflict m) := by
  induction outNames with
  | nil => simp at h
  | cons n rest ih =>
    by_cases hn : n ∈ written
    · exact ⟨n, by simp [errorCheck, tokName, hn]⟩
    · obtain ⟨k, hk, hkw⟩ := h
      rcases List.mem_cons.mp hk with hkn | hkr
      · exact absurd (hkn ▸ hkw) hn
      · obtain ⟨m, hm⟩ := ih ⟨k, hkr, hkw⟩
        exact ⟨m, by simpa [errorCheck, tokName, hn] using hm⟩

/-- The `select` scan with every predicate false is a pure counter. -/
theorem selectLoop_all_false (snap : List (String × Value)) (d : DPP)
    (bs : List (Step × Cond)) (h : ∀ p ∈ bs, p.2 snap = false) :
    selectLoop snap d bs = (d, false, bs.length, none) := by
  induction bs with
  | nil => rfl
  | cons p rest ih =>
    obtain ⟨s, c⟩ := p
    have hc : c snap = false := h (s, c) (List.mem_cons_self _ _)
    simp [selectLoop, hc, ih (fun q hq => h q (List.mem_cons_of_mem _ hq))]

/-- The `select` scan stops at the first true predicate: it runs that
branch's step, evaluates exactly the predicates up to and including it,
and never looks at the remaining branches. -/
theorem selectLoop_prefix (snap : List (String × Value)) (d : DPP)
    (pre post : List (Step × Cond)) (s : Step) (c : Cond)
    (hpre : ∀ p ∈ pre, p.2 snap = false) (hc : c snap = true) :
    selectLoop snap d (pre ++ (s, c) :: post) =
      ((stepOnce d s).1, true, pre.length + 1, (stepOnce d s).2.2) := by
  induction pre with
  | nil =>
    rcases hst : stepOnce d s with ⟨d1, tr, err⟩
    simp [selectLoop, hc, hst]
  | cons p rest ih =>
    obtain ⟨s2, c2⟩ := p
    have hc2 : c2 snap = false := hpre (s2, c2) (List.mem_cons_self _ _)
    have ih2 := ih (fun q hq => hpre q (List.mem_cons_of_mem _ hq))
    simp [selectLoop, hc2, ih2]

/-! ### Claim theorems -/

/-- Claim C1, counterexample: after `DPP(x=10)` runs
`common([x] >> dbl >> [y])`, the output variable `y` is registered (it
is in the placeholder registry and holds `20` in the Context Store),
yet resolving the `ALL` token still returns only `[x]` — not the claimed
`[x, y]` — because `_resolve_inputs` expands `ALL` from `var_names`,
which `_execute_map` never extends. -/
theorem c1_counterexample :
    lookupCtx dAfterY.context "y" = some (Value.int 20) ∧
    dAfterY.placeholders = ["x", "y"] ∧
    resolveInputs dAfterY (InSpec.list [Tok.all]) = .ok [Tok.var "x"] ∧
    ([Tok.var "x"] : List Tok) ≠ [Tok.var "x", Tok.var "y"] := by
  refine ⟨rfl, rfl, rfl, ?_⟩
  decide

/-- Claim C1, amended: resolving the `ALL` input token returns exactly
the names supplied as initial bindings at construction, in construction
order; variables first introduced as step outputs are never included,
because no step execution ever extends `var_names`. -/
theorem c1_all_initial_only (d : DPP) (rest : List Tok)
    (hcov : ∀ n ∈ d.var_names, n ∈ d.placeholders) :
    resolveInputs d (InSpec.list (Tok.all :: rest)) = .ok (d.var_names.map Tok.var) ∧
    ∀ s : Step, ((stepOnce d s).1).var_names = d.var_names := by
  constructor
  · simp [resolveInputs]
    exact hcov
  · intro s
    exact stepOnce_var_names d s

/-- Witness for `c1_all_initial_only` at the run `DPP(x=10)`. -/
theorem c1_witness :
    resolveInputs dInit (InSpec.list [Tok.all]) = .ok [Tok.var "x"] ∧
    ∀ s : Step, ((stepOnce dInit s).1).var_names = ["x"] :=
  c1_all_initial_only dInit [] (by decide)

/-- Claim C2, code bug: with `DPP(x=10)` and
`branch(([x], +1, [y]), ([x], +2, [y]), merge='first')` the call
succeeds, both branch functions are invoked (the call trace has two
entries, each one call on `[10]`), but the Context Store ends with
`y = 12` — branch 2's value — not branch 1's `11` as the claim (and the
code's own docstring for `'first'`) require: the `continue` on line 454
only skips the `written_vars` bookkeeping, after the context write on
line 290 has already happened. -/
theorem c2_first_policy_overwrites :
    c2run.2.2 = none ∧
    c2run.2.1 = [[[Value.int 10]], [[Value.int 10]]] ∧
    lookupCtx c2run.1.context "y" = some (Value.int 12) ∧
    (some (Value.int 12) : Option Value) ≠ some (Value.int 11) := by
  refine ⟨rfl, rfl, rfl, ?_⟩
  intro h
  have h2 := Option.some.inj h
  have h3 := Value.int.inj h2
  omega

/-- Claim C3: under the `error` merge policy, when a branch declares a
named output already written by an earlier branch of the same
invocation, the whole call returns a variable-conflict error; the final
state is exactly the state left by the earlier branches (their writes
remain, no rollback, and the last-output record is not replaced), and
the conflicting branch contributes no call-trace entry — its function is
never invoked. -/
theorem c3_error_policy (d d1 : DPP) (pre rest : List Step) (s : Step)
    (w1 : List String) (acc1 : List Tok) (trs1 : List (List (List Value)))
    (inputs : List Tok) (outNames : List String)
    (hpre : branchLoop Merge.error d [] [] [] pre = (d1, w1, acc1, trs1, none))
    (hins : resolveInputs d1 s.ins = .ok inputs)
    (houts : resolveOutputs s.outs inputs = outNames.map Tok.var)
    (hconf : ∃ n ∈ outNames, n ∈ w1) :
    ∃ m, DPP.branch d (pre ++ s :: rest) Merge.error = (d1, trs1, some (Err.conflict m)) := by
  obtain ⟨m, hm⟩ := errorCheck_conflict w1 outNames hconf
  refine ⟨m, ?_⟩
  unfold DPP.branch
  rw [branchLoop_append, hpre]
  simp [branchLoop, hins, houts, hm]

/-- Witness for `c3_error_policy`: `DPP(x=10)` with two branches both
declaring `y`, under `merge='error'`. -/
theorem c3_witness :
    ∃ m, DPP.branch dInit [stepAdd1, stepAdd2] Merge.error =
      (dA, [[[Value.int 10]]], some (Err.conflict m)) :=
  c3_error_policy dInit dA [stepAdd1] [] stepAdd2 ["y"] [Tok.var "y"] [[[Value.int 10]]]
    [Tok.var "x"] ["y"] rfl rfl rfl ⟨"y", by decide, by decide⟩

/-- Claim C4, counterexample: with `DPP(x=1, y=2)`, the element-wise
strategy on `inputs=[x, y]`, `fn=identity`, `outputs=[z, z]` leaves
`context['z'] = 2`, but the claim instance at `k = 0` demands
`context[outputs[0]] = fn(original_context[inputs[0]]) = 1`: with a
repeated output name the later write wins, so the claimed equation
fails for every `k` but the last occurrence. -/
theorem c4_counterexample :
    lookupCtx ((executeMap dXY [Tok.var "x", Tok.var "y"] idFn
      [Tok.var "z", Tok.var "z"]).1).context "z" = some (Value.int 2) ∧
    (some (Value.int 2) : Option Value) ≠ some (Value.int 1) := by
  refine ⟨rfl, ?_⟩
  intro h
  have h2 := Option.some.inj h
  have h3 := Value.int.inj h2
  omega

/-- Claim C4, amended: for an element-wise execution with `n` present
inputs and `n` pairwise-distinct named outputs, the function is called
exactly `n` times with exactly one argument each (the call trace is the
input values, each wrapped as a single argument), the execution raises
nothing, every output name ends bound to the function applied to the
pre-step value of its corresponding input, and unequal input/output
counts fail with an arity error before any call is made. -/
theorem c4_map_strategy (d : DPP) (inNames outNames : List String) (vals : List Value)
    (fn : Fn)
    (hlen : inNames.length = outNames.length)
    (hvals : lookupList d.context inNames = some vals)
    (hnd : outNames.Nodup) :
    (executeMap d (inNames.map Tok.var) fn (outNames.map Tok.var)).2.1 =
      vals.map (fun v => [v]) ∧
    (executeMap d (inNames.map Tok.var) fn (outNames.map Tok.var)).2.2 = none ∧
    (∀ p ∈ outNames.zip vals,
      lookupCtx ((executeMap d (inNames.map Tok.var) fn (outNames.map Tok.var)).1).context
        p.1 = some (fn [p.2])) ∧
    (∀ ins outs : List Tok, ins.length ≠ outs.length →
      executeMap d ins fn outs = (d, [], some Err.arityMismatch)) := by
  have hvl := lookupList_length d.context inNames vals hvals
  have hmc := mapCalls_of_lookupList d.context fn inNames vals hvals
  have hlen2 : (inNames.map Tok.var).length = (outNames.map Tok.var).length := by
    simp [hlen]
  have hkey := executeMap_eq_of_calls d (inNames.map Tok.var) fn (outNames.map Tok.var)
    (vals.map fun v => fn [v]) (vals.map fun v => [v]) hlen2 hmc
  refine ⟨?_, ?_, ?_, ?_⟩
  · rw [hkey]
  · rw [hkey]
    exact writeOutputs_vars_snd outNames (vals.map fun v => fn [v]) d
  · intro p hp
    rw [hkey]
    obtain ⟨a, b⟩ := p
    have hmem : (a, fn [b]) ∈ outNames.zip (vals.map fun v => fn [v]) := by
      rw [List.zip_map_right]
      exact List.mem_map_of_mem _ hp
    have hlk := writeOutputs_lookup_nodup outNames (vals.map fun v => fn [v]) d hnd
      (by simp [hvl, hlen]) (a, fn [b]) hmem
    simpa using hlk
  · intro ins outs hne
    simp [executeMap, hne]

/-- Witness for `c4_map_strategy`: `DPP(x=1, y=2)`, identity function,
outputs `[z, w]`. -/
theorem c4_witness :
    (executeMap dXY [Tok.var "x", Tok.var "y"] idFn [Tok.var "z", Tok.var "w"]).2.1 =
      [[Value.int 1], [Value.int 2]] ∧
    (executeMap dXY [Tok.var "x", Tok.var "y"] idFn [Tok.var "z", Tok.var "w"]).2.2 = none ∧
    (∀ p ∈ [("z", Value.int 1), ("w", Value.int 2)],
      lookupCtx ((executeMap dXY [Tok.var "x", Tok.var "y"] idFn
        [Tok.var "z", Tok.var "w"]).1).context p.1 = some (idFn [p.2])) ∧
    (∀ ins outs : List Tok, ins.length ≠ outs.length →
      executeMap dXY ins idFn outs = (dXY, [], some Err.arityMismatch)) :=
  c4_map_strategy dXY ["x", "y"] ["z", "w"] [Value.int 1, Value.int 2] idFn rfl rfl
    (by decide)

/-- Claim C5: the whole-tuple strategy with all inputs present calls the
function exactly once, with all input values as positional arguments in
input order; a single declared output takes the result as-is (in
particular a sequence result is stored unchanged, not unpacked); with
more than one declared output a non-sequence result fails with a type
error and a sequence of the wrong length with an arity error, both
leaving the state untouched; and a sequence of matching length has each
element written to the corresponding (distinct) output name. -/
theorem c5_all_strategy (d : DPP) (inNames : List String) (vals : List Value) (fn : Fn)
    (outputs : List Tok) (r : DPP × List (List Value) × Option Err)
    (hvals : lookupList d.context inNames = some vals)
    (hr : r = executeAll d (inNames.map Tok.var) fn outputs) :
    r.2.1 = [vals] ∧
    (∀ o : String, outputs = [Tok.var o] →
      r.2.2 = none ∧ lookupCtx r.1.context o = some (fn vals)) ∧
    (1 < outputs.length → (∀ rs, fn vals ≠ Value.seq rs) →
      r = (d, [vals], some Err.typeMismatch)) ∧
    (∀ rs, 1 < outputs.length → fn vals = Value.seq rs → rs.length ≠ outputs.length →
      r = (d, [vals], some Err.arityMismatch)) ∧
    (∀ (rs : List Value) (outNames : List String),
      fn vals = Value.seq rs → outputs = outNames.map Tok.var →
      1 < outputs.length → rs.length = outputs.length → outNames.Nodup →
      r.2.2 = none ∧ ∀ p ∈ outNames.zip rs, lookupCtx r.1.context p.1 = some p.2) := by
  subst hr
  have hread := readInputs_of_lookupList d.context inNames vals hvals
  refine ⟨executeAll_trace d (inNames.map Tok.var) fn outputs vals hread, ?_, ?_, ?_, ?_⟩
  · intro o ho
    subst ho
    have hw : writeOutputs d [(Tok.var o, fn vals)] =
        ({ d with context := insertCtx d.context o (fn vals)
                  placeholders := addPh d.placeholders o }, none) := rfl
    refine ⟨?_, ?_⟩
    · simp [executeAll, hread, hw]
    · simp [executeAll, hread, hw, lookupCtx_insertCtx]
  · intro hgt hns
    have hone : ¬outputs.length = 1 := by omega
    cases hres : fn vals with
    | seq rs => exact absurd hres (hns rs)
    | int n => simp [executeAll, hread, hone, hres]
    | str s2 => simp [executeAll, hread, hone, hres]
  · intro rs hgt hres hne
    have hone : ¬outputs.length = 1 := by omega
    simp [executeAll, hread, hone, hres, hne]
  · intro rs outNames hres houts hgt hrl hnd
    have hone : ¬outputs.length = 1 := by omega
    subst houts
    have hone2 : ¬outNames.length = 1 := by simpa using hone
    have hrl2 : rs.length = outNames.length := by simpa using hrl
    rcases hw : writeOutputs d ((outNames.map Tok.var).zip rs) with ⟨d1, werr⟩
    have hsnd := writeOutputs_vars_snd outNames rs d
    rw [hw] at hsnd
    refine ⟨?_, ?_⟩
    · simp [executeAll, hread, hone, hone2, hres, hrl, hrl2, hw, hsnd]
    · intro p hp
      have hlk := writeOutputs_lookup_nodup outNames rs d hnd (by simpa using hrl.symm) p hp
      rw [hw] at hlk
      simpa [executeAll, hread, hone, hone2, hres, hrl, hrl2, hw] using hlk

/-- Witness for `c5_all_strategy`: the spec's concrete scenario
`DPP(a=2, b=3)` with `lambda a, b: (a+b, a*b)` into `[s, p]`. -/
theorem c5_witness :
    (executeAll dAB [Tok.var "a", Tok.var "b"] sumProd [Tok.var "s", Tok.var "p"]).2.1 =
      [[Value.int 2, Value.int 3]] ∧
    (∀ o : String, ([Tok.var "s", Tok.var "p"] : List Tok) = [Tok.var o] →
      (executeAll dAB [Tok.var "a", Tok.var "b"] sumProd [Tok.var "s", Tok.var "p"]).2.2 =
        none ∧
      lookupCtx (executeAll dAB [Tok.var "a", Tok.var "b"] sumProd
        [Tok.var "s", Tok.var "p"]).1.context o =
        some (sumProd [Value.int 2, Value.int 3])) ∧
    (1 < ([Tok.var "s", Tok.var "p"] : List Tok).length →
      (∀ rs, sumProd [Value.int 2, Value.int 3] ≠ Value.seq rs) →
      executeAll dAB [Tok.var "a", Tok.var "b"] sumProd [Tok.var "s", Tok.var "p"] =
        (dAB, [[Value.int 2, Value.int 3]], some Err.typeMismatch)) ∧
    (∀ rs, 1 < ([Tok.var "s", Tok.var "p"] : List Tok).length →
      sumProd [Value.int 2, Value.int 3] = Value.seq rs →
      rs.length ≠ ([Tok.var "s", Tok.var "p"] : List Tok).length →
      executeAll dAB [Tok.var "a", Tok.var "b"] sumProd [Tok.var "s", Tok.var "p"] =
        (dAB, [[Value.int 2, Value.int 3]], some Err.arityMismatch)) ∧
    (∀ (rs : List Value) (outNames : List String),
      sumProd [Value.int 2, Value.int 3] = Value.seq rs →
      ([Tok.var "s", Tok.var "p"] : List Tok) = outNames.map Tok.var →
      1 < ([Tok.var "s", Tok.var "p"] : List Tok).length →
      rs.length = ([Tok.var "s", Tok.var "p"] : List Tok).length → outNames.Nodup →
      (executeAll dAB [Tok.var "a", Tok.var "b"] sumProd [Tok.var "s", Tok.var "p"]).2.2 =
        none ∧
      ∀ p ∈ outNames.zip rs,
        lookupCtx (executeAll dAB [Tok.var "a", Tok.var "b"] sumProd
          [Tok.var "s", Tok.var "p"]).1.context p.1 = some p.2) :=
  c5_all_strategy dAB ["a", "b"] [Value.int 2, Value.int 3] sumProd
    [Tok.var "s", Tok.var "p"] _ rfl rfl

/-- Claim C6: in a two-step sequence where step B's input spec is the
`PREV` token and step A produced a non-empty resolved output list, B's
inputs resolve to exactly A's resolved outputs, in order, whatever the
names are — the sequence continues as step B applied to those outputs;
and resolving `PREV` against an empty last-output record fails with the
no-previous-output error. -/
theorem c6_prev_chaining (d d1 : DPP) (A B : Step) (insA outA : List Tok)
    (tr : List (List Value))
    (hA : resolveInputs d A.ins = .ok insA)
    (hout : resolveOutputs A.outs insA = outA)
    (hexec : execStrategy d insA A.fn outA = (d1, tr, none))
    (hne : outA ≠ [])
    (hB : B.ins = InSpec.list [Tok.prev]) :
    resolveInputs { d1 with last_outputs := outA } B.ins = .ok outA ∧
    DPP.sequence d [A, B] =
      (match stepOnce { d1 with last_outputs := outA } B with
       | (d2, _, err) => (d2, err)) ∧
    (∀ d0 : DPP, d0.last_outputs = [] →
      resolveInputs d0 (InSpec.list [Tok.prev]) = .error Err.noPrev) := by
  have hres : resolveInputs { d1 with last_outputs := outA } (InSpec.list [Tok.prev]) =
      .ok outA := by
    simp [resolveInputs, hne]
  refine ⟨by rw [hB]; exact hres, ?_, ?_⟩
  · have hstep : stepOnce d A = ({ d1 with last_outputs := outA }, tr, none) := by
      simp [stepOnce, hA, hout, hexec]
    rcases hB2 : stepOnce { d1 with last_outputs := outA } B with ⟨d2, tr2, err2⟩
    cases err2 with
    | some e => simp [DPP.sequence, seqLoop, hstep, hB2]
    | none => simp [DPP.sequence, seqLoop, hstep, hB2]
  · intro d0 h0
    simp [resolveInputs, h0]

/-- Witness for `c6_prev_chaining`: `DPP(x=10)` running
`sequence(([x], +1, [y]), (PREV, +5, [z]))`. -/
theorem c6_witness :
    resolveInputs dPrevSet stepPrev.ins = .ok [Tok.var "y"] ∧
    DPP.sequence dInit [stepAdd1, stepPrev] =
      (match stepOnce dPrevSet stepPrev with
       | (d2, _, err) => (d2, err)) ∧
    (∀ d0 : DPP, d0.last_outputs = [] →
      resolveInputs d0 (InSpec.list [Tok.prev]) = .error Err.noPrev) :=
  c6_prev_chaining dInit dA stepAdd1 stepPrev [Tok.var "x"] [Tok.var "y"]
    [[Value.int 10]] rfl rfl rfl (by decide) rfl

/-- Claim C7: `select` evaluates the predicates in order against the
entry snapshot; the first true predicate has its step resolved and
executed, after which no further predicate is evaluated (the scan
counter stops at the position of the match) and no later branch or
default runs — the result only depends on the matched step. If no
predicate is true and no default is supplied, the whole call returns
the state unchanged (Context Store, registry and last-output record
untouched). -/
theorem c7_select_short_circuit (d : DPP) (pre post : List (Step × Cond)) (s : Step)
    (c : Cond) (dflt : Option Step)
    (hpre : ∀ p ∈ pre, p.2 d.context = false) (hc : c d.context = true) :
    DPP.select d (pre ++ (s, c) :: post) dflt =
      ((stepOnce d s).1, (stepOnce d s).2.2) ∧
    selectLoop d.context d (pre ++ (s, c) :: post) =
      ((stepOnce d s).1, true, pre.length + 1, (stepOnce d s).2.2) ∧
    (∀ (d0 : DPP) (bs : List (Step × Cond)),
      (∀ p ∈ bs, p.2 d0.context = false) → DPP.select d0 bs none = (d0, none)) := by
  have hloop := selectLoop_prefix d.context d pre post s c hpre hc
  refine ⟨?_, hloop, ?_⟩
  · rcases hst : stepOnce d s with ⟨d1, tr, err⟩
    rw [hst] at hloop
    cases err with
    | some e => simp [DPP.select, hloop, hst]
    | none => simp [DPP.select, hloop, hst]
  · intro d0 bs h0
    simp [DPP.select, selectLoop_all_false d0.context d0 bs h0]

/-- Witness for `c7_select_short_circuit`: one false branch, then a true
branch, then an unreached true branch, no default. -/
theorem c7_witness :
    DPP.select dInit [(stepAdd2, condFalse), (stepAdd1, condTrue), (stepAdd2, condTrue)]
      none = ((stepOnce dInit stepAdd1).1, (stepOnce dInit stepAdd1).2.2) ∧
    selectLoop dInit.context dInit
      [(stepAdd2, condFalse), (stepAdd1, condTrue), (stepAdd2, condTrue)] =
      ((stepOnce dInit stepAdd1).1, true, 2, (stepOnce dInit stepAdd1).2.2) ∧
    (∀ (d0 : DPP) (bs : List (Step × Cond)),
      (∀ p ∈ bs, p.2 d0.context = false) → DPP.select d0 bs none = (d0, none)) :=
  c7_select_short_circuit dInit [(stepAdd2, condFalse)] [(stepAdd2, condTrue)]
    stepAdd1 condTrue none
    (by intro p hp; rw [List.mem_singleton] at hp; subst hp; rfl) rfl

/-- Claim C8, counterexample: `DPP(_x=1)` registers the variable `_x`
(it is in `var_names` and the Context Store holds `1`), yet the
read-only lookup fails with an attribute error instead of returning the
value, because `__getattr__` unconditionally rejects names starting
with an underscore (line 603). So the lookup does not return the value
of every registered name, and failure does not imply the name was never
registered. -/
theorem c8_counterexample :
    "_x" ∈ dC8.var_names ∧
    lookupCtx dC8.context "_x" = some (Value.int 1) ∧
    DPP.get dC8 "_x" = .error Err.attributeError ∧
    (Except.error Err.attributeError : Except Err Value) ≠ .ok (Value.int 1) := by
  refine ⟨by decide, rfl, rfl, ?_⟩
  intro h
  exact Except.noConfusion h

/-- Claim C8, amended: for a name that neither starts with an underscore
nor collides with the reserved attribute names (`context`,
`placeholders`, `var_names`, `last_outputs`, `common`, `all`, `branch`,
`sequence`, `select`, `debug`), the read-only lookup returns the current
Context Store value when the name is present — and every name appearing
in the Context Store is exactly a registered one: an initial binding or
a name first written as a step output — and fails with a not-found error
when it is absent; underscore-prefixed or reserved names always fail,
registered or not. -/
theorem c8_get_lookup (d : DPP) (name : String)
    (h1 : startsWithUnderscore name = false) (h2 : name ∉ reservedNames) :
    (∀ v, lookupCtx d.context name = some v → DPP.get d name = .ok v) ∧
    (lookupCtx d.context name = none → DPP.get d name = .error Err.notFound) ∧
    (∀ n, startsWithUnderscore n = true ∨ n ∈ reservedNames →
      DPP.get d n = .error Err.attributeError) := by
  have hguard : ¬(startsWithUnderscore name = true ∨ name ∈ reservedNames) := by
    simp [h1, h2]
  refine ⟨?_, ?_, ?_⟩
  · intro v hv
    simp [DPP.get, hguard, hv]
  · intro hv
    simp [DPP.get, hguard, hv]
  · intro n hn
    simp [DPP.get, hn]

/-- Witness for `c8_get_lookup` at `DPP(x=10)` and the name `x`. -/
theorem c8_witness :
    (∀ v, lookupCtx dInit.context "x" = some v → DPP.get dInit "x" = .ok v) ∧
    (lookupCtx dInit.context "x" = none → DPP.get dInit "x" = .error Err.notFound) ∧
    (∀ n, startsWithUnderscore n = true ∨ n ∈ reservedNames →
      DPP.get dInit n = .error Err.attributeError) :=
  c8_get_lookup dInit "x" rfl (by decide)

/-- Claim C9: for either execution strategy, a context entry whose name
is not among the resolved output names keeps its previous value; no
context entry is ever removed (every previously present name is still
bound afterwards); and the placeholder registry never loses an entry. -/
theorem c9_frame (d : DPP) (inputs outputs : List Tok) (fn : Fn) :
    (∀ m, (∀ t ∈ outputs, tokName t ≠ Except.ok m) →
      lookupCtx ((executeMap d inputs fn outputs).1).context m = lookupCtx d.context m ∧
      lookupCtx ((executeAll d inputs fn outputs).1).context m = lookupCtx d.context m) ∧
    (∀ n v, lookupCtx d.context n = some v →
      (∃ w, lookupCtx ((executeMap d inputs fn outputs).1).context n = some w) ∧
      (∃ w, lookupCtx ((executeAll d inputs fn outputs).1).context n = some w)) ∧
    (∀ n, n ∈ d.placeholders →
      n ∈ ((executeMap d inputs fn outputs).1).placeholders ∧
      n ∈ ((executeAll d inputs fn outputs).1).placeholders) := by
  refine ⟨fun m hm => ⟨?_, ?_⟩, fun n v hv => ⟨?_, ?_⟩, fun n hn => ⟨?_, ?_⟩⟩
  · rcases executeMap_state d inputs fn outputs with h | ⟨rs, h⟩
    · rw [h]
    · rw [h]
      exact writeOutputs_frame _ _ _ (zip_frame_premise outputs rs m hm)
  · rcases executeAll_state d inputs fn outputs with h | ⟨rs, h⟩
    · rw [h]
    · rw [h]
      exact writeOutputs_frame _ _ _ (zip_frame_premise outputs rs m hm)
  · rcases executeMap_state d inputs fn outputs with h | ⟨rs, h⟩
    · exact ⟨v, by rw [h]; exact hv⟩
    · rw [h]
      exact writeOutputs_domain _ _ _ _ hv
  · rcases executeAll_state d inputs fn outputs with h | ⟨rs, h⟩
    · exact ⟨v, by rw [h]; exact hv⟩
    · rw [h]
      exact writeOutputs_domain _ _ _ _ hv
  · rcases executeMap_state d inputs fn outputs with h | ⟨rs, h⟩
    · rw [h]
      exact hn
    · rw [h]
      exact writeOutputs_placeholders _ _ _ hn
  · rcases executeAll_state d inputs fn outputs with h | ⟨rs, h⟩
    · rw [h]
      exact hn
    · rw [h]
      exact writeOutputs_placeholders _ _ _ hn

/-- Witness for `c9_frame`: with `DPP(x=10)` and a step writing only
`y`, the entry `x` keeps its value under both strategies. -/
theorem c9_witness :
    lookupCtx ((executeMap dInit [Tok.var "x"] dbl [Tok.var "y"]).1).context "x" =
      lookupCtx dInit.context "x" ∧
    lookupCtx ((executeAll dInit [Tok.var "x"] dbl [Tok.var "y"]).1).context "x" =
      lookupCtx dInit.context "x" :=
  (c9_frame dInit [Tok.var "x"] [Tok.var "y"] dbl).1 "x"
    (by
      intro t ht
      rw [List.mem_singleton] at ht
      subst ht
      intro hc
      exact absurd (Except.ok.inj hc) (by decide))

/-- Claim C10: an explicit input list whose head is the `PREV` (resp.
`ALL`) token resolves to that token's full expansion, discarding every
other element of the list; while a list headed by an ordinary named
placeholder is returned unchanged, so `PREV`/`ALL` tokens at later
positions pass through unresolved into the resolver's result. -/
theorem c10_head_token (d : DPP) :
    (∀ rest : List Tok, d.last_outputs ≠ [] →
      resolveInputs d (InSpec.list (Tok.prev :: rest)) = .ok d.last_outputs) ∧
    (∀ rest : List Tok, (∀ n ∈ d.var_names, n ∈ d.placeholders) →
      resolveInputs d (InSpec.list (Tok.all :: rest)) = .ok (d.var_names.map Tok.var)) ∧
    (∀ (n : String) (rest : List Tok),
      resolveInputs d (InSpec.list (Tok.var n :: rest)) = .ok (Tok.var n :: rest)) := by
  refine ⟨?_, ?_, ?_⟩
  · intro rest h
    simp [resolveInputs, h]
  · intro rest h
    simp [resolveInputs]
    exact h
  · intro n rest
    rfl

/-- Witness for `c10_head_token`: a head token swallows the rest of the
list; a head placeholder lets later tokens pass through unresolved. -/
theorem c10_witness :
    resolveInputs dPrevSet (InSpec.list [Tok.prev, Tok.all]) = .ok [Tok.var "y"] ∧
    resolveInputs dPrevSet (InSpec.list [Tok.all, Tok.prev]) = .ok [Tok.var "x"] ∧
    resolveInputs dPrevSet (InSpec.list [Tok.var "x", Tok.prev, Tok.all]) =
      .ok [Tok.var "x", Tok.prev, Tok.all] :=
  ⟨(c10_head_token dPrevSet).1 [Tok.all] (by decide),
   (c10_head_token dPrevSet).2.1 [Tok.prev] (by decide),
   (c10_head_token dPrevSet).2.2 "x" [Tok.prev, Tok.all]⟩

end Dpp
